import Mathlib

/-!
Verification development for the n8n webhook front-end (`src/src/App.tsx`).

The file shallowly embeds the response-normalization and session logic of
the client: the continuation-address resolver `toProxied`, the payload
helpers `normalizeImages`, `coerceRootFromAny` and `pickList`, the
per-image selection/feedback map synchronisation, and the pure
response-processing cores of the step handlers (`sendBackToN8n`,
`fetchResults`, `sendSelectedImagesBack`, `sendImagesForFinals`).

Platform primitives (the JavaScript value model, `String()` coercion,
`trim`, `toLowerCase`, the WHATWG `URL` constructor and `JSON.parse`) are
modelled explicitly; `JSON.parse` is passed as a parameter
`p : String → Option Json` since the handlers only ever observe its
success value or its failure.
-/

/-- Model of a JavaScript runtime value as far as the client's response
handling observes it: JSON values plus `undefined`.  Numbers are modelled
as integers (the flows only ever carry integral numbers). -/
inductive Json where
  | null
  | undefined
  | bool (b : Bool)
  | num (n : Int)
  | str (s : String)
  | arr (xs : List Json)
  | obj (fs : List (String × Json))

/-- JS truthiness: `null`, `undefined`, `false`, `0` and `""` are falsy;
every object (including every array) is truthy. -/
def jsTruthy : Json → Bool
  | .null => false
  | .undefined => false
  | .bool b => b
  | .num n => decide (n ≠ 0)
  | .str s => decide (s ≠ "")
  | .arr _ => true
  | .obj _ => true

def jsFalsy (j : Json) : Bool := !jsTruthy j

/-- JS `??`-style nullish test. -/
def jsNullish : Json → Bool
  | .null => true
  | .undefined => true
  | _ => false

/-- JS `a || b`: the left operand when truthy, otherwise the right. -/
def jsOr (a b : Json) : Json := if jsTruthy a then a else b

/-- Optional member access `v?.k`: field lookup on objects, `undefined`
on every other value (primitives and arrays carry none of the field
names the client reads). -/
def jget : Json → String → Json
  | .obj fs, k => match fs.find? (fun e => e.1 == k) with
    | some e => e.2
    | none => .undefined
  | _, _ => .undefined

/-- `'k' in v` for the values the handlers test: key presence on an
object; `false` on arrays and primitives. -/
def hasKey : Json → String → Bool
  | .obj fs, k => fs.any (fun e => e.1 == k)
  | _, _ => false

/-- `typeof v === 'object' && v`: objects and arrays, excluding `null`. -/
def isObjectLike : Json → Bool
  | .obj _ => true
  | .arr _ => true
  | _ => false

/-- Element rendering inside the JS `Array.prototype.join` used by
`String()` on arrays: `null`/`undefined` render empty; nested
arrays/objects are rendered shallowly (no code path in the repository
feeds nested arrays to `String()`). -/
def jsElemToString : Json → String
  | .null => ""
  | .undefined => ""
  | .bool true => "true"
  | .bool false => "false"
  | .num n => toString n
  | .str s => s
  | .arr _ => ""
  | .obj _ => "[object Object]"

/-- Model of the JS `String()` coercion for the values these flows
produce. -/
def jsToString : Json → String
  | .null => "null"
  | .undefined => "undefined"
  | .bool true => "true"
  | .bool false => "false"
  | .num n => toString n
  | .str s => s
  | .arr xs => String.intercalate "," (xs.map jsElemToString)
  | .obj _ => "[object Object]"

/-- The whitespace classes `trim`/the split regexes act on in these
flows (ASCII whitespace; the exotic Unicode space classes of the JS
definitions never occur in the exchanged payloads). -/
def isJsWS (c : Char) : Bool := c == ' ' || c == '\t' || c == '\n' || c == '\r'

def trimLeftL (l : List Char) : List Char := l.dropWhile isJsWS

def trimRightL (l : List Char) : List Char := (l.reverse.dropWhile isJsWS).reverse

def trimBothL (l : List Char) : List Char := trimRightL (trimLeftL l)

/-- Model of `String.prototype.trim`. -/
def jsTrim (s : String) : String := String.mk (trimBothL s.toList)

/-- Model of `String.prototype.toLowerCase` (ASCII). -/
def jsLower (s : String) : String := String.mk (s.toList.map Char.toLower)

/-- `isSegOf pat hay`: `pat` occurs as a contiguous segment of `hay`. -/
def isSegOf (pat : List Char) : List Char → Bool
  | [] => pat.isPrefixOf []
  | c :: t => pat.isPrefixOf (c :: t) || isSegOf pat t

/-- Case-insensitive substring test: models `/pat/i.test(hay)` for a
regex that is a literal (possibly with escaped brackets). -/
def containsCI (hay pat : String) : Bool :=
  isSegOf (pat.toList.map Char.toLower) (hay.toList.map Char.toLower)

/-- Case-insensitive literal-prefix test. -/
def startsWithCI (s pre : String) : Bool :=
  (pre.toList.map Char.toLower).isPrefixOf (s.toList.map Char.toLower)

section Resolver

/-!
### Continuation address resolver (`toProxied`, App.tsx lines 26-34)

The WHATWG `URL` constructor invoked by the source is a platform
primitive; `parseAbsUrl` models it for hierarchical absolute URLs
(`scheme://host...`): it yields the pathname (an empty path normalizes
to `"/"`) and the search string (leading `?`, empty when the query is
empty), and fails on every input that does not start with a scheme —
in particular on every input whose first character is not a letter,
which is how relative inputs fall into the resolver's catch branch.
-/

def isSchemeChar (c : Char) : Bool := c.isAlpha || c.isDigit || c == '+' || c == '-' || c == '.'

def isHostEnd (c : Char) : Bool := c == '/' || c == '?' || c == '#'

def isPathEnd (c : Char) : Bool := c == '?' || c == '#'

structure UrlParts where
  pathname : List Char
  search : List Char
deriving DecidableEq

/-- The `u.search` component read off the remainder that follows the
pathname: a `?` introduces the query, which runs up to a `#`; an empty
query yields an empty search string. -/
def parseSearch : List Char → List Char
  | [] => []
  | a :: q =>
    if a == '?' then
      let qq := q.takeWhile (fun x => x != '#')
      if qq.isEmpty then [] else '?' :: qq
    else []

/-- Host and pathname of the part following `scheme://`: the host runs
up to the first `/`, `?` or `#` and must be non-empty; the pathname runs
up to the first `?` or `#`, an empty pathname normalizing to `/`. -/
def parseHostPath (rem2 : List Char) : Option UrlParts :=
  let host := rem2.takeWhile (fun x => !isHostEnd x)
  if host.isEmpty then none
  else
    let rest2 := rem2.dropWhile (fun x => !isHostEnd x)
    let path := rest2.takeWhile (fun x => !isPathEnd x)
    some ⟨if path.isEmpty then ['/'] else path,
      parseSearch (rest2.dropWhile (fun x => !isPathEnd x))⟩

/-- After the scheme characters, an absolute hierarchical URL requires
the separator `://`. -/
def parseAfterScheme : List Char → Option UrlParts
  | c1 :: c2 :: c3 :: rem2 =>
    if c1 == ':' && c2 == '/' && c3 == '/' then parseHostPath rem2 else none
  | _ => none

/-- Model of `new URL(s)` restricted to what `toProxied` reads
(`u.pathname` and `u.search`): the input is absolute exactly when it
starts with a letter followed by scheme characters and `://`. -/
def parseAbsUrl (cs : List Char) : Option UrlParts :=
  match cs with
  | [] => none
  | c :: rest =>
    if c.isAlpha then parseAfterScheme (rest.dropWhile isSchemeChar) else none

/-- The local same-origin root under which all continuation requests are
issued (`'/api'` in the source). -/
def apiRoot : List Char := ['/', 'a', 'p', 'i']

/-- Core of `toProxied` (App.tsx lines 26-34) over character lists:
rewrite an absolute engine address to `/api` + pathname + search; leave
an already-`/api`-rooted relative address unchanged; otherwise prepend
`/api`, inserting a slash only when the input does not start with one. -/
def toProxiedCore (cs : List Char) : List Char :=
  match parseAbsUrl cs with
  | some u => apiRoot ++ u.pathname ++ u.search
  | none =>
    if apiRoot.isPrefixOf cs then cs
    else apiRoot ++ (if cs.head? == some '/' then [] else ['/']) ++ cs

/-- `toProxied` (App.tsx lines 26-34). -/
def toProxied (s : String) : String := String.mk (toProxiedCore s.toList)

end Resolver

theorem toProxiedCore_api_rooted (l : List Char) :
    toProxiedCore ('/' :: 'a' :: 'p' :: 'i' :: l) = '/' :: 'a' :: 'p' :: 'i' :: l := by
  unfold toProxiedCore
  simp [parseAbsUrl, apiRoot, List.isPrefixOf]

/-- C8: the continuation address resolver is idempotent on every
relative input already rooted at the local `/api` root:
`toProxied (toProxied x) = toProxied x` for `x = "/api" ++ t`. -/
theorem toProxied_idem_on_api_rooted (t : String) :
    toProxied (toProxied ("/api" ++ t)) = toProxied ("/api" ++ t) := by
  have h : ("/api" ++ t).toList = '/' :: 'a' :: 'p' :: 'i' :: t.toList := rfl
  have h1 : toProxied ("/api" ++ t) = "/api" ++ t := by
    show String.mk (toProxiedCore ("/api" ++ t).toList) = "/api" ++ t
    rw [h, toProxiedCore_api_rooted]
    rfl
  rw [h1]
  exact h1

theorem dropWhile_append_all {p : Char → Bool} (a : List Char) (b : Char) (t : List Char)
    (ha : ∀ x ∈ a, p x = true) (hb : p b = false) :
    (a ++ b :: t).dropWhile p = b :: t := by
  induction a with
  | nil => simp [List.dropWhile, hb]
  | cons c cs ih =>
    have hc : p c = true := ha c (by simp)
    simp only [List.cons_append, List.dropWhile, hc]
    exact ih (fun x hx => ha x (by simp [hx]))

theorem takeWhile_append_all {p : Char → Bool} (a : List Char) (b : Char) (t : List Char)
    (ha : ∀ x ∈ a, p x = true) (hb : p b = false) :
    (a ++ b :: t).takeWhile p = a := by
  induction a with
  | nil => simp [List.takeWhile, hb]
  | cons c cs ih =>
    have hc : p c = true := ha c (by simp)
    simp only [List.cons_append, List.takeWhile, hc]
    simp only [cond_true, List.cons.injEq, true_and]
    exact ih (fun x hx => ha x (by simp [hx]))

theorem takeWhile_all {p : Char → Bool} (a : List Char) (ha : ∀ x ∈ a, p x = true) :
    a.takeWhile p = a := by
  induction a with
  | nil => rfl
  | cons c cs ih =>
    have hc : p c = true := ha c (by simp)
    simp only [List.takeWhile, hc, cond_true, List.cons.injEq, true_and]
    exact ih (fun x hx => ha x (by simp [hx]))

theorem dropWhile_all {p : Char → Bool} (a : List Char) (ha : ∀ x ∈ a, p x = true) :
    a.dropWhile p = [] := by
  induction a with
  | nil => rfl
  | cons c cs ih =>
    have hc : p c = true := ha c (by simp)
    simp only [List.dropWhile, hc]
    exact ih (fun x hx => ha x (by simp [hx]))

/-- Well-formed `u.search` component: empty, or a `?` followed by a
non-empty query free of `#`. -/
def validSearch : List Char → Bool
  | [] => true
  | a :: q => a == '?' && !q.isEmpty && q.all (fun x => x != '#')

theorem parseAbsUrl_components (c : Char) (cr host pr qs : List Char)
    (hc : c.isAlpha = true)
    (hcr : ∀ x ∈ cr, isSchemeChar x = true)
    (hhost : host ≠ [])
    (hhostc : ∀ x ∈ host, (!isHostEnd x) = true)
    (hpr : ∀ x ∈ pr, (!isPathEnd x) = true)
    (hqs : validSearch qs = true) :
    parseAbsUrl (c :: cr ++ ':' :: '/' :: '/' :: (host ++ '/' :: (pr ++ qs))) =
      some ⟨'/' :: pr, qs⟩ := by
  have hdropScheme : (cr ++ ':' :: '/' :: '/' :: (host ++ '/' :: (pr ++ qs))).dropWhile isSchemeChar
      = ':' :: '/' :: '/' :: (host ++ '/' :: (pr ++ qs)) :=
    dropWhile_append_all cr ':' _ hcr (by decide)
  have hslashAll : ∀ x ∈ '/' :: pr, (!isPathEnd x) = true := by
    intro x hx
    rcases List.mem_cons.mp hx with h | h
    · subst h; decide
    · exact hpr x h
  have hq' : qs = [] ∨ ∃ q, qs = '?' :: q ∧ q ≠ [] ∧ ∀ x ∈ q, (x != '#') = true := by
    cases qs with
    | nil => exact Or.inl rfl
    | cons a q =>
      right
      simp only [validSearch, Bool.and_eq_true, beq_iff_eq, Bool.not_eq_true',
        List.isEmpty_eq_false_iff_exists_mem, List.all_eq_true] at hqs
      obtain ⟨⟨ha, hne⟩, hall⟩ := hqs
      subst ha
      refine ⟨q, rfl, ?_, hall⟩
      obtain ⟨x, hx⟩ := hne
      intro hnil
      rw [hnil] at hx
      exact List.not_mem_nil x hx
  have hassoc : '/' :: (pr ++ qs) = ('/' :: pr) ++ qs := by simp
  have htakePath : ('/' :: (pr ++ qs)).takeWhile (fun x => !isPathEnd x) = '/' :: pr := by
    rcases hq' with h | ⟨q, hq, hqne, hqc⟩
    · subst h
      simp only [List.append_nil]
      exact takeWhile_all _ hslashAll
    · subst hq
      rw [hassoc]
      exact takeWhile_append_all _ '?' _ hslashAll (by decide)
  have hdropPath : ('/' :: (pr ++ qs)).dropWhile (fun x => !isPathEnd x) = qs := by
    rcases hq' with h | ⟨q, hq, hqne, hqc⟩
    · subst h
      simp only [List.append_nil]
      exact dropWhile_all _ hslashAll
    · subst hq
      rw [hassoc]
      exact dropWhile_append_all _ '?' _ hslashAll (by decide)
  obtain ⟨h0, hh, hEq⟩ : ∃ h0 hh, host = h0 :: hh := by
    cases host with
    | nil => exact absurd rfl hhost
    | cons h0 hh => exact ⟨h0, hh, rfl⟩
  subst hEq
  have htakeHost : ((h0 :: hh) ++ '/' :: (pr ++ qs)).takeWhile (fun x => !isHostEnd x) = h0 :: hh :=
    takeWhile_append_all _ '/' _ hhostc (by decide)
  have hdropHost : ((h0 :: hh) ++ '/' :: (pr ++ qs)).dropWhile (fun x => !isHostEnd x)
      = '/' :: (pr ++ qs) :=
    dropWhile_append_all _ '/' _ hhostc (by decide)
  have hsearch : parseSearch qs = qs := by
    rcases hq' with h | ⟨q, hq, hqne, hqc⟩
    · subst h; rfl
    · subst hq
      have htk : q.takeWhile (fun x => x != '#') = q := takeWhile_all _ hqc
      simp only [parseSearch, htk]
      simp [List.isEmpty_iff, hqne]
  have h1 : parseAbsUrl (c :: cr ++ ':' :: '/' :: '/' :: ((h0 :: hh) ++ '/' :: (pr ++ qs)))
      = if c.isAlpha = true then
          parseAfterScheme ((cr ++ ':' :: '/' :: '/' :: ((h0 :: hh) ++ '/' :: (pr ++ qs))).dropWhile
            isSchemeChar)
        else none := rfl
  rw [h1, if_pos hc, hdropScheme]
  have h2 : parseAfterScheme (':' :: '/' :: '/' :: ((h0 :: hh) ++ '/' :: (pr ++ qs)))
      = parseHostPath ((h0 :: hh) ++ '/' :: (pr ++ qs)) := by
    simp [parseAfterScheme]
  rw [h2]
  unfold parseHostPath
  simp only [htakeHost, hdropHost, htakePath, hdropPath, hsearch, List.isEmpty_cons]
  simp

/-- C9: on an absolute URL the resolver discards scheme and host and
yields the local `/api` root followed by the original path and query
string.  The URL is presented through its components: a scheme (a letter
followed by scheme characters), a non-empty host free of `/?#`, a path
starting with `/` and free of `?#`, and a well-formed search string. -/
theorem toProxiedCore_absolute (c : Char) (cr host pr qs : List Char)
    (hc : c.isAlpha = true)
    (hcr : ∀ x ∈ cr, isSchemeChar x = true)
    (hhost : host ≠ [])
    (hhostc : ∀ x ∈ host, (!isHostEnd x) = true)
    (hpr : ∀ x ∈ pr, (!isPathEnd x) = true)
    (hqs : validSearch qs = true) :
    toProxiedCore (c :: cr ++ ':' :: '/' :: '/' :: (host ++ '/' :: (pr ++ qs))) =
      apiRoot ++ '/' :: (pr ++ qs) := by
  unfold toProxiedCore
  rw [parseAbsUrl_components c cr host pr qs hc hcr hhost hhostc hpr hqs]
  simp

/-- Witness for C9 at the spec's example:
`https://host.example/webhook-wait/abc?x=1` resolves to
`/api/webhook-wait/abc?x=1`. -/
theorem toProxiedCore_absolute_witness :
    toProxied "https://host.example/webhook-wait/abc?x=1" = "/api/webhook-wait/abc?x=1" := by
  have hdecomp : ("https://host.example/webhook-wait/abc?x=1").toList =
      'h' :: "ttps".toList ++ ':' :: '/' :: '/' ::
        ("host.example".toList ++ '/' :: ("webhook-wait/abc".toList ++ "?x=1".toList)) := by decide
  have h := toProxiedCore_absolute 'h' "ttps".toList "host.example".toList
    "webhook-wait/abc".toList "?x=1".toList
    (by decide) (by decide) (by decide) (by decide) (by decide) (by decide)
  show String.mk (toProxiedCore ("https://host.example/webhook-wait/abc?x=1").toList) = _
  rw [hdecomp, h]
  decide

section PayloadParsing

/-!
### Payload parsing helpers (App.tsx lines 47-73)

`JSON.parse` is a platform primitive and is threaded through as a
parameter `p : String → Option Json`; the claims proved below hold for
every such parse function.
-/

/-- One global pass of `replace(/^o|c$/g, '')`: drop a leading `o` if
present and a trailing `c` if present (used with `[`/`]` and `"`/`"`). -/
def stripWrap (o c : Char) (l : List Char) : List Char :=
  let l1 := match l with
    | x :: xs => if x == o then xs else x :: xs
    | [] => []
  if l1.getLast? == some c then l1.dropLast else l1

/-- Interior pieces of a `split(/\s*,\s*/)`: every piece but the first
is preceded by a comma, so its leading whitespace is absorbed by the
separator; every piece but the last is followed by one, so its trailing
whitespace is absorbed too. -/
def adjustMid : List (List Char) → List (List Char)
  | [] => []
  | [y] => [trimLeftL y]
  | y :: ys => trimBothL y :: adjustMid ys

/-- Model of `split(/\s*,\s*/)`: split at commas, the separator
absorbing the maximal whitespace runs adjacent to each comma; outer
leading/trailing whitespace of the whole string stays on the first/last
piece. -/
def splitCommaWS (l : List Char) : List (List Char) :=
  match l.splitOn ',' with
  | [] => []
  | [x] => [x]
  | x :: xs => trimRightL x :: adjustMid xs

/-- The string-encoded JSON-array branch of `normalizeImages`
(App.tsx lines 55-60): attempted only when the trimmed string is
bracket-wrapped, and used only when the parse yields an array. -/
def imagesViaJsonArr (p : String → Option Json) (asStr : String) : Option (List String) :=
  if asStr.toList.head? == some '[' && asStr.toList.getLast? == some ']' then
    match p asStr with
    | some (.arr xs) => some ((xs.map (fun s => jsTrim (jsToString s))).filter (fun s => s != ""))
    | _ => none
  else none

/-- `Array.isArray`, returning the elements on success. -/
def asArr? : Json → Option (List Json)
  | .arr xs => some xs
  | _ => none

/-- The non-array tail of `normalizeImages` (App.tsx lines 53-66): the
field is coerced to a trimmed string, parsed as a JSON array when
bracket-wrapped, and otherwise bracket-stripped, comma-split,
quote-stripped, trimmed and filtered. -/
def normImagesAsString (p : String → Option Json) (asStr : String) : List String :=
  match imagesViaJsonArr p asStr with
  | some r => r
  | none =>
    ((splitCommaWS (stripWrap '[' ']' asStr.toList)).map
        (fun piece => String.mk (trimBothL (stripWrap '"' '"' piece)))).filter
      (fun s => s != "")

/-- `normalizeImages` (App.tsx lines 48-67): falsy input yields `[]`;
an array maps each element through `String(·).trim()` dropping empties;
any other value goes through the string coercion path. -/
def normalizeImages (p : String → Option Json) (imagesField : Json) : List String :=
  if jsFalsy imagesField then []
  else match asArr? imagesField with
    | some xs => (xs.map (fun s => jsTrim (jsToString s))).filter (fun s => s != "")
    | none => normImagesAsString p (jsTrim (jsToString imagesField))

/-- `coerceRootFromAny` (App.tsx lines 69-73): an array contributes its
first element (`?? {}`), anything else is used directly (`?? {}`). -/
def coerceRootFromAny (data : Json) : Json :=
  match data with
  | .arr xs =>
    let v := xs.head?.getD .undefined
    if jsNullish v then .obj [] else v
  | d => if jsNullish d then .obj [] else d

/-- `pickList` (App.tsx lines 544-551, local to `sendImagesForFinals`):
an array maps elements through `String(·)` dropping empties; a string is
parsed as a JSON array, falling back to a comma-split with trimming;
anything else yields `[]`. -/
def pickList (p : String → Option Json) : Json → List String
  | .arr xs => (xs.map jsToString).filter (fun s => s != "")
  | .str v =>
    let viaJson : Option (List String) :=
      match p v with
      | some (.arr xs) => some ((xs.map jsToString).filter (fun s => s != ""))
      | _ => none
    match viaJson with
    | some r => r
    | none =>
      ((splitCommaWS v.toList).map (fun piece => String.mk (trimBothL piece))).filter
        (fun s => s != "")
  | _ => []

end PayloadParsing

section TrimLemmas

theorem dropWhile_dropWhile (p : Char → Bool) (l : List Char) :
    (l.dropWhile p).dropWhile p = l.dropWhile p := by
  induction l with
  | nil => rfl
  | cons c cs ih =>
    by_cases h : p c = true
    · simp [List.dropWhile, h, ih]
    · simp [List.dropWhile, h]

theorem dropWhile_head_not (p : Char → Bool) (l : List Char) (c : Char) (t : List Char)
    (h : l.dropWhile p = c :: t) : p c = false := by
  induction l with
  | nil => simp [List.dropWhile] at h
  | cons x xs ih =>
    by_cases hx : p x = true
    · rw [List.dropWhile_cons_of_pos hx] at h
      exact ih h
    · rw [List.dropWhile_cons_of_neg hx] at h
      rw [← List.cons.injEq x xs c t |>.mp h |>.1]
      exact Bool.eq_false_iff.mpr hx

theorem trimLeftL_idem (l : List Char) : trimLeftL (trimLeftL l) = trimLeftL l :=
  dropWhile_dropWhile isJsWS l

theorem trimRightL_idem (l : List Char) : trimRightL (trimRightL l) = trimRightL l := by
  unfold trimRightL
  rw [List.reverse_reverse, dropWhile_dropWhile]

theorem trimRightL_of_trimLeftL (l : List Char) :
    trimLeftL (trimRightL (trimLeftL l)) = trimRightL (trimLeftL l) := by
  rcases h : trimRightL (trimLeftL l) with _ | ⟨c, t⟩
  · rfl
  · have hrev : (c :: t).reverse <:+ (trimLeftL l).reverse := by
      have hsuf : (trimLeftL l).reverse.dropWhile isJsWS <:+ (trimLeftL l).reverse :=
        List.dropWhile_suffix isJsWS
      have heq : (trimLeftL l).reverse.dropWhile isJsWS = (c :: t).reverse := by
        have h2 := congrArg List.reverse h
        unfold trimRightL at h2
        rwa [List.reverse_reverse] at h2
      rwa [heq] at hsuf
    have hpre : c :: t <+: trimLeftL l := List.reverse_suffix.mp hrev
    obtain ⟨r, hr⟩ := hpre
    have hc : isJsWS c = false := dropWhile_head_not isJsWS l c (t ++ r) (by
      rw [show List.dropWhile isJsWS l = trimLeftL l from rfl, ← hr]
      simp)
    show List.dropWhile isJsWS (c :: t) = c :: t
    rw [List.dropWhile_cons_of_neg (by simp [hc])]

theorem trimBothL_idem (l : List Char) : trimBothL (trimBothL l) = trimBothL l := by
  unfold trimBothL
  rw [trimRightL_of_trimLeftL, trimRightL_idem]

theorem jsTrim_mk_trimBothL (l : List Char) :
    jsTrim (String.mk (trimBothL l)) = String.mk (trimBothL l) := by
  show String.mk (trimBothL (trimBothL l)) = String.mk (trimBothL l)
  rw [trimBothL_idem]

theorem jsTrim_idem (s : String) : jsTrim (jsTrim s) = jsTrim s :=
  jsTrim_mk_trimBothL s.toList

end TrimLemmas

/-- A concrete stand-in for `JSON.parse` that always fails, used by the
closed witnesses and counterexamples below. -/
def pNone : String → Option Json := fun _ => none

theorem mem_mapTrim_filter {xs : List Json} {s : String}
    (hs : s ∈ (xs.map (fun x => jsTrim (jsToString x))).filter (fun t => t != "")) :
    s ≠ "" ∧ jsTrim s = s := by
  rw [List.mem_filter] at hs
  obtain ⟨hmem, hne⟩ := hs
  obtain ⟨a, _, ha⟩ := List.mem_map.mp hmem
  refine ⟨by simpa using hne, ?_⟩
  rw [← ha]
  exact jsTrim_idem _

theorem mem_mapTrimBoth_filter {L : List (List Char)} {g : List Char → List Char} {s : String}
    (hs : s ∈ (L.map (fun piece => String.mk (trimBothL (g piece)))).filter (fun t => t != "")) :
    s ≠ "" ∧ jsTrim s = s := by
  rw [List.mem_filter] at hs
  obtain ⟨hmem, hne⟩ := hs
  obtain ⟨a, _, ha⟩ := List.mem_map.mp hmem
  refine ⟨by simpa using hne, ?_⟩
  rw [← ha]
  exact jsTrim_mk_trimBothL _

theorem imagesViaJsonArr_mem (p : String → Option Json) (asStr : String) (r : List String)
    (h : imagesViaJsonArr p asStr = some r) : ∀ s ∈ r, s ≠ "" ∧ jsTrim s = s := by
  intro s hs
  unfold imagesViaJsonArr at h
  split at h
  · split at h
    · rw [Option.some.injEq] at h
      subst h
      exact mem_mapTrim_filter hs
    · exact absurd h (by simp)
  · exact absurd h (by simp)

/-- C10: `normalizeImages` is a total function (every throwing operation
in its source is wrapped in `try`/`catch`, which the embedding reflects
by construction); every falsy input yields `[]`; and every element of
its output, for every input and every behaviour of `JSON.parse`, is a
non-empty string with no leading or trailing whitespace. -/
theorem normalizeImages_total_safe (p : String → Option Json) (f : Json) :
    (jsFalsy f = true → normalizeImages p f = []) ∧
    ∀ s ∈ normalizeImages p f, s ≠ "" ∧ jsTrim s = s := by
  constructor
  · intro h
    unfold normalizeImages
    rw [if_pos h]
  · intro s hs
    have hstrcase : ∀ a : String, s ∈ normImagesAsString p a → s ≠ "" ∧ jsTrim s = s := by
      intro a ha
      unfold normImagesAsString at ha
      rcases hv : imagesViaJsonArr p a with _ | r
      · rw [hv] at ha
        exact mem_mapTrimBoth_filter ha
      · rw [hv] at ha
        exact imagesViaJsonArr_mem p a r hv s ha
    unfold normalizeImages at hs
    by_cases hf : jsFalsy f = true
    · rw [if_pos hf] at hs
      exact absurd hs (List.not_mem_nil s)
    · rw [if_neg hf] at hs
      rcases ha : asArr? f with _ | xs
      · rw [ha] at hs
        exact hstrcase _ hs
      · rw [ha] at hs
        exact mem_mapTrim_filter hs

/-- Witness for C10: the falsy input `null` yields `[]`, and on the
comma-separated input `"a, b ,c"` the element `"a"` of the output is
non-empty and trimmed. -/
theorem normalizeImages_total_safe_witness :
    normalizeImages pNone Json.null = [] ∧ ("a" ≠ "" ∧ jsTrim "a" = "a") :=
  ⟨(normalizeImages_total_safe pNone Json.null).1 (by decide),
    (normalizeImages_total_safe pNone (Json.str "a, b ,c")).2 "a" (by decide)⟩

section SelectionMaps

/-!
### Per-image selection/feedback maps (App.tsx lines 103-104, 114-141)

JS objects used as string-keyed records are modelled as association
lists with unique keys; `alookup` models property access (`next[k]`),
`none` standing for an absent key (the `== null` test of the source).
-/

/-- `imgKey` (App.tsx lines 114-116): composite identity of a listed
image, its reference joined with its positional index. -/
def imgKey (src : String) (i : Nat) : String := src ++ "-" ++ toString i

def alookup {α : Type} : List (String × α) → String → Option α
  | [], _ => none
  | (k', v) :: m, k => if k' = k then some v else alookup m k

/-- The keys of the currently listed images, in list order. -/
def imageKeys (images : List String) : List String :=
  (images.enum).map (fun e => imgKey e.2 e.1)

/-- One pass of `images.forEach((src, i) => { if (next[k] == null) next[k] = dflt })`
over a copy of the previous map: every key not yet bound is appended
with the default value; existing bindings are untouched. -/
def addMissing {α : Type} (d : α) : List (String × α) → List String → List (String × α)
  | m, [] => m
  | m, k :: ks => addMissing d (if (alookup m k).isSome then m else m ++ [(k, d)]) ks

/-- The `setSelected` update of the image-list effect (App.tsx lines
119-132): an empty image list clears the map, otherwise missing keys are
added with `false`. -/
def syncSelected (images : List String) (prev : List (String × Bool)) : List (String × Bool) :=
  if images.isEmpty then [] else addMissing false prev (imageKeys images)

/-- The `setImgFeedback` update of the same effect (App.tsx lines
133-140): an empty image list clears the map, otherwise missing keys are
added with `""`. -/
def syncFeedback (images : List String) (prev : List (String × String)) :
    List (String × String) :=
  if images.isEmpty then [] else addMissing "" prev (imageKeys images)

end SelectionMaps

theorem alookup_append {α : Type} (m : List (String × α)) (k' : String) (d : α) (k : String) :
    alookup (m ++ [(k', d)]) k = match alookup m k with
      | some v => some v
      | none => if k' = k then some d else none := by
  induction m with
  | nil => rfl
  | cons e m ih =>
    obtain ⟨k0, v0⟩ := e
    by_cases h : k0 = k
    · simp [alookup, h]
    · simp only [List.cons_append, alookup, if_neg h]
      exact ih

theorem alookup_addMissing {α : Type} (d : α) (ks : List String) (m : List (String × α))
    (k : String) :
    alookup (addMissing d m ks) k = match alookup m k with
      | some v => some v
      | none => if k ∈ ks then some d else none := by
  induction ks generalizing m with
  | nil => cases h : alookup m k <;> simp [addMissing, h]
  | cons k' ks ih =>
    unfold addMissing
    by_cases h : (alookup m k').isSome = true
    · rw [if_pos h, ih m]
      cases hmk : alookup m k with
      | some v => rfl
      | none =>
        by_cases hkk : k = k'
        · subst hkk
          rw [hmk] at h
          simp at h
        · simp [List.mem_cons, hkk]
    · rw [if_neg h, ih]
      cases hmk : alookup m k with
      | some v => simp [alookup_append, hmk]
      | none =>
        rw [alookup_append, hmk]
        by_cases hkk : k' = k
        · simp [hkk, List.mem_cons]
        · have hkk' : ¬ k = k' := fun hc => hkk hc.symm
          simp [hkk, hkk', List.mem_cons]

/-- Counterexample to C3 as stated: after the image list changes from
`["a"]` to `["b"]`, the synchronised selection map still holds the stale
entry for the removed key `a-0`, which is not a key of the current
list.  The claim's "no entry for a key that is no longer listed" part is
therefore false. -/
theorem syncSelected_stale_key_cex :
    alookup (syncSelected ["b"] [("a-0", true)]) "a-0" = some true ∧
    "a-0" ∉ imageKeys ["b"] := by
  constructor
  · decide
  · decide

/-- C3 amended: after every change to the image list, the selection and
feedback maps hold an entry for every currently-listed image key, with
the previous value preserved for surviving keys and the defaults
(`false` / `""`) for new keys; entries for removed keys are also
retained unchanged whenever the new list is non-empty, and both maps
are cleared exactly when the new list is empty. -/
theorem syncMaps_amended (images : List String) (sel : List (String × Bool))
    (fb : List (String × String)) :
    (images = [] → syncSelected images sel = [] ∧ syncFeedback images fb = []) ∧
    (∀ k ∈ imageKeys images,
      alookup (syncSelected images sel) k = some ((alookup sel k).getD false) ∧
      alookup (syncFeedback images fb) k = some ((alookup fb k).getD "")) ∧
    (∀ k v, alookup sel k = some v → images ≠ [] →
      alookup (syncSelected images sel) k = some v) ∧
    (∀ k v, alookup fb k = some v → images ≠ [] →
      alookup (syncFeedback images fb) k = some v) := by
  refine ⟨?_, ?_, ?_, ?_⟩
  · intro h
    subst h
    exact ⟨rfl, rfl⟩
  · intro k hk
    have hne : images.isEmpty = false := by
      cases images with
      | nil => simp [imageKeys] at hk
      | cons a l => rfl
    constructor
    · rw [syncSelected, hne]
      simp only [Bool.false_eq_true, if_false]
      rw [alookup_addMissing]
      cases hs : alookup sel k with
      | some v => rfl
      | none => simp [hk]
    · rw [syncFeedback, hne]
      simp only [Bool.false_eq_true, if_false]
      rw [alookup_addMissing]
      cases hs : alookup fb k with
      | some v => rfl
      | none => simp [hk]
  · intro k v hv hne
    have hne' : images.isEmpty = false := by
      cases images with
      | nil => exact absurd rfl hne
      | cons a l => rfl
    rw [syncSelected, hne']
    simp only [Bool.false_eq_true, if_false]
    rw [alookup_addMissing, hv]
  · intro k v hv hne
    have hne' : images.isEmpty = false := by
      cases images with
      | nil => exact absurd rfl hne
      | cons a l => rfl
    rw [syncFeedback, hne']
    simp only [Bool.false_eq_true, if_false]
    rw [alookup_addMissing, hv]

/-- Witness for the amended C3: clearing on an empty list; a fresh key
gets the default; a surviving binding keeps its value. -/
theorem syncMaps_amended_witness :
    syncSelected [] [("a-0", true)] = [] ∧
    alookup (syncSelected ["imgA"] [("x-9", true)]) "imgA-0" = some false ∧
    alookup (syncSelected ["imgA"] [("x-9", true)]) "x-9" = some true := by
  refine ⟨((syncMaps_amended [] [("a-0", true)] []).1 rfl).1, ?_, ?_⟩
  · have h := ((syncMaps_amended ["imgA"] [("x-9", true)] []).2.1 "imgA-0" (by decide)).1
    exact h.trans (by decide)
  · exact (syncMaps_amended ["imgA"] [("x-9", true)] []).2.2.1 "x-9" true (by decide)
      (by simp)

section Selections

/-- An entry of the outgoing `selections` array: `{image, feedback, index}`. -/
structure Selection where
  image : String
  feedback : String
  index : Nat
deriving DecidableEq

/-- The `selections` array as computed by `sendSelectedImagesBack`
(App.tsx lines 414-420) and `sendImagesForFinals` (lines 486-492): map
each listed image with its position to an entry when its selection flag
is truthy and to `null` otherwise, then `filter(Boolean)`. -/
def selectionsOf (images : List String) (sel : List (String × Bool))
    (fb : List (String × String)) : List Selection :=
  ((images.enum).map (fun e =>
    if (alookup sel (imgKey e.2 e.1)).getD false then
      some ⟨e.2, jsTrim ((alookup fb (imgKey e.2 e.1)).getD ""), e.1⟩
    else none)).reduceOption

/-- Helper for the claim-side definition: walk the image list in order
carrying the position. -/
def selectionsSpecGo (sel : List (String × Bool)) (fb : List (String × String)) :
    Nat → List String → List Selection
  | _, [] => []
  | i, src :: rest =>
    if (alookup sel (imgKey src i)).getD false then
      ⟨src, jsTrim ((alookup fb (imgKey src i)).getD ""), i⟩ :: selectionsSpecGo sel fb (i + 1) rest
    else selectionsSpecGo sel fb (i + 1) rest

/-- Claim-side definition, following the spec's words: iterate the
current image list in order; for each image whose selection flag is true
emit exactly one entry carrying the image, the feedback trimmed of
surrounding whitespace and the positional index; omit unselected images
entirely. -/
def selectionsSpec (images : List String) (sel : List (String × Bool))
    (fb : List (String × String)) : List Selection :=
  selectionsSpecGo sel fb 0 images

end Selections

theorem selectionsOf_go (sel : List (String × Bool)) (fb : List (String × String)) (n : Nat)
    (l : List String) :
    ((List.enumFrom n l).map (fun e =>
      if (alookup sel (imgKey e.2 e.1)).getD false then
        some (⟨e.2, jsTrim ((alookup fb (imgKey e.2 e.1)).getD ""), e.1⟩ : Selection)
      else none)).reduceOption = selectionsSpecGo sel fb n l := by
  induction l generalizing n with
  | nil => rfl
  | cons src rest ih =>
    simp only [List.enumFrom, List.map]
    by_cases h : (alookup sel (imgKey src n)).getD false = true
    · rw [if_pos h]
      unfold selectionsSpecGo
      rw [if_pos h, List.reduceOption_cons_of_some, ih]
    · rw [if_neg h]
      unfold selectionsSpecGo
      rw [if_neg h, List.reduceOption_cons_of_none, ih]

/-- C6: the outgoing selections array of the Results-submit and
Finals-request handlers equals the claim-side computation — one entry
per selected image, in list order, with trimmed feedback and positional
index, unselected images omitted — and on three images with only index 1
selected it is exactly the one trimmed entry at index 1. -/
theorem selectionsOf_correct :
    (∀ (images : List String) (sel : List (String × Bool)) (fb : List (String × String)),
      selectionsOf images sel fb = selectionsSpec images sel fb) ∧
    selectionsOf ["imgA", "imgB", "imgC"] [(imgKey "imgB" 1, true)]
        [(imgKey "imgB" 1, "  looks great  ")]
      = [⟨"imgB", "looks great", 1⟩] := by
  constructor
  · intro images sel fb
    exact selectionsOf_go sel fb 0 images
  · decide

section Handlers

/-!
### Step handler response cores (App.tsx lines 285-577)

Each `…Core` function is the pure part of a handler from the point the
response body has been read (and, where the handler parses it, from the
parse outcome on): it maps the previous session state to the next one.
Network transport, the pre-request busy flags and the `message`-clearing
that precede the request are outside these cores; every claim below
concerns only the response processing.
-/

inductive St where
  | idle
  | pending
  | done
  | error
deriving DecidableEq

inductive Tab where
  | trigger
  | uploadStyle
  | compose
  | review
  | results
  | finals
deriving DecidableEq

structure AppState where
  activeTab : Tab
  resumeUrl : String
  status : St
  images : List String
  message : String
  finalStatus : St
  finalMessage : String
  finalVideos : List String
deriving DecidableEq

def initState : AppState :=
  { activeTab := .trigger, resumeUrl := "", status := .idle, images := [], message := "",
    finalStatus := .idle, finalMessage := "", finalVideos := [] }

/-- `root?.message || ''` as stored by the handlers.  The client keeps
the raw value; for the string-valued messages these flows exchange the
`String()` rendering used here coincides with it. -/
def msgOf (root : Json) : String :=
  if jsTruthy (jget root "message") then jsToString (jget root "message") else ""

/-- `String(root?.status || '').toLowerCase()`. -/
def stOf (root : Json) : String := jsLower (jsToString (jsOr (jget root "status") (.str "")))

/-- Resume adoption of `submitUploadStyle` (App.tsx line 186):
`if (next && next.resumeUrl) setResumeUrl(String(next.resumeUrl))`. -/
def uploadStyleResume (next : Json) (old : String) : String :=
  if jsTruthy next && jsTruthy (jget next "resumeUrl") then jsToString (jget next "resumeUrl")
  else old

/-- Resume adoption of `submitCompose` outside the deliverables branch
(App.tsx line 229), identical in form to the style-upload one. -/
def composeResume (next : Json) (old : String) : String :=
  if jsTruthy next && jsTruthy (jget next "resumeUrl") then jsToString (jget next "resumeUrl")
  else old

/-- Resume adoption of `fetchReview` (App.tsx line 256):
`if (root.resumeUrl) setResumeUrl(String(root.resumeUrl))`. -/
def fetchReviewResume (root : Json) (old : String) : String :=
  if jsTruthy (jget root "resumeUrl") then jsToString (jget root "resumeUrl") else old

/-- Response core of `sendBackToN8n` (App.tsx lines 305-348).  The
returned flag records whether the handler falls through to the follow-up
`fetchResults` poll.  The inline root extraction of line 315 coincides
with `coerceRootFromAny`. -/
def sendBackToN8nCore (p : String → Option Json) (data : Json) (s : AppState) :
    AppState × Bool :=
  let root := coerceRootFromAny data
  let s1 := if jsTruthy (jget root "resumeUrl")
    then { s with resumeUrl := jsToString (jget root "resumeUrl") } else s
  let imgs := normalizeImages p (jget root "images")
  let msg := msgOf root
  let st := stOf root
  if imgs ≠ [] then
    ({ s1 with
        images := imgs
        status := .done
        message := if msg ≠ "" then msg else s1.message
        activeTab := .results }, false)
  else if st = "done" then
    ({ s1 with
        status := .done
        message := if msg ≠ "" then msg else s1.message
        activeTab := .results }, false)
  else if st = "error" then
    ({ s1 with
        status := .error
        message := if msg ≠ "" then msg else "An error occurred in the workflow"
        activeTab := .results }, false)
  else
    ({ s1 with activeTab := .results }, true)

/-- Shared tail of `fetchResults` (App.tsx lines 388-402): an error
state wins, then a non-empty image list, then the pending fallback with
the default waiting message. -/
def fetchResultsFinish (s : AppState) (ru : String) (imgs : List String) (msg : String)
    (state? : Option St) : AppState :=
  if state? = some St.error then
    { s with
        resumeUrl := ru
        status := .error
        message := if msg ≠ "" then msg else "An error occurred in the workflow" }
  else if imgs ≠ [] then
    { s with
        resumeUrl := ru
        images := imgs
        status := .done
        message := if msg ≠ "" then msg else s.message }
  else
    { s with
        resumeUrl := ru
        status := state?.getD .pending
        message := if msg = "" then "Waiting for images from n8n…" else s.message }

/-- Response core of `fetchResults` (App.tsx lines 367-402): a non-null
object carrying a `status` key takes the status branch (which never
touches the stored address), anything else the legacy branch through
`coerceRootFromAny`. -/
def fetchResultsCore (p : String → Option Json) (data : Json) (s : AppState) : AppState :=
  if isObjectLike data && hasKey data "status" then
    let imgs := normalizeImages p (jget data "images")
    let msg := msgOf data
    let st := stOf data
    let state : St := if st = "done" then .done else if st = "error" then .error else .pending
    fetchResultsFinish s s.resumeUrl imgs msg (some state)
  else
    let root := coerceRootFromAny data
    let imgs := normalizeImages p (jget root "images")
    let msg := msgOf root
    let state? : Option St := if jsTruthy (jget root "ok") then some St.done else none
    let ru := if jsTruthy (jget root "resumeUrl") then jsToString (jget root "resumeUrl")
      else s.resumeUrl
    fetchResultsFinish s ru imgs msg state?

/-- Response core of `sendSelectedImagesBack` (App.tsx lines 447-473):
error status first, then images, then the pending fallback. -/
def sendSelectedImagesBackCore (p : String → Option Json) (data : Json) (s : AppState) :
    AppState :=
  let root := coerceRootFromAny data
  let s1 := if jsTruthy (jget root "resumeUrl")
    then { s with resumeUrl := jsToString (jget root "resumeUrl") } else s
  let imgs := normalizeImages p (jget root "images")
  let msg := msgOf root
  let st := stOf root
  if st = "error" then
    { s1 with
        status := .error
        message := if msg ≠ "" then msg else "Workflow reported an error." }
  else if imgs ≠ [] then
    { s1 with
        images := imgs
        status := .done
        message := if msg ≠ "" then msg else s1.message
        activeTab := .results }
  else
    { s1 with
        status := .pending
        message := if msg ≠ "" then msg else "Waiting for images from n8n…" }

end Handlers

section FinalsHandler

/-- Root extraction of `sendImagesForFinals` (App.tsx line 537):
`Array.isArray(data) ? (data[0] ?? {}) : data` (no `?? {}` on the
non-array side; the caller has already ruled out falsy data). -/
def rootOfFinals (data : Json) : Json :=
  match data with
  | .arr xs =>
    let v := xs.head?.getD .undefined
    if jsNullish v then .obj [] else v
  | d => d

/-- The shape test of the finals resume filter (App.tsx line 540):
`/^(https?:\/\/|\/)/i`. -/
def resumeShapeOk (s : String) : Bool :=
  startsWithCI s "http://" || startsWithCI s "https://" || s.toList.head? == some '/'

/-- The literal inside `/\[filled at execution time\]/i`. -/
def placeholderMarker : String := "[filled at execution time]"

def jsonOfStrList (l : List String) : Json := .arr (l.map .str)

def strListOfJson : Json → List String
  | .arr xs => xs.filterMap (fun x => match x with | .str v => some v | _ => none)
  | _ => []

/-- The candidate chain of App.tsx lines 553-558, written through the
JS `||` on array values:
`pickList(root.videos) || pickList(root.VIDEOS) || pickList(root.media) || pickList(root.urls) || []`. -/
def finalsVideos (p : String → Option Json) (root : Json) : List String :=
  strListOfJson (jsOr (jsonOfStrList (pickList p (jget root "videos")))
    (jsOr (jsonOfStrList (pickList p (jget root "VIDEOS")))
      (jsOr (jsonOfStrList (pickList p (jget root "media")))
        (jsOr (jsonOfStrList (pickList p (jget root "urls"))) (jsonOfStrList [])))))

/-- Root-processing part of `sendImagesForFinals` (App.tsx lines
537-572): the resume filter, the video-candidate chain, and the
done/pending decision `(videos && videos.length > 0) || ok || st === 'done'`. -/
def sendImagesForFinalsRootCore (p : String → Option Json) (root : Json) (s : AppState) :
    AppState :=
  let maybeResume := jsToString (jsOr (jget root "resumeUrl") (.str ""))
  let s1 := if resumeShapeOk maybeResume && !containsCI maybeResume placeholderMarker
    then { s with resumeUrl := maybeResume } else s
  let videos := finalsVideos p root
  let msg := jsToString (jsOr (jget root "message") (.str ""))
  let st := stOf root
  let ok := jsTruthy (jget root "ok")
  if videos ≠ [] ∨ ok = true ∨ st = "done" then
    { s1 with
        finalVideos := videos
        finalStatus := .done
        finalMessage := if msg ≠ "" then msg
          else if videos ≠ [] then "Received " ++ toString videos.length ++ " video(s)."
          else "Done." }
  else
    { s1 with
        finalStatus := .pending
        finalMessage := if msg ≠ "" then msg else "Waiting for videos from n8n…" }

/-- `indexOf` returning the first occurrence, `none` for `-1`. -/
def strIndexOf (s : String) (c : Char) : Option Nat := s.toList.findIdx? (fun x => x == c)

/-- `lastIndexOf`, `-1` when absent. -/
def lastIndexOfZ (s : String) (c : Char) : Int :=
  match s.toList.reverse.findIdx? (fun x => x == c) with
  | some j => ((s.toList.length - 1 - j : Nat) : Int)
  | none => -1

/-- `raw.slice(a, b)` for the in-range indices used by the recovery. -/
def strSlice (s : String) (a b : Nat) : String := String.mk ((s.toList.drop a).take (b - a))

/-- The parse-plus-recovery of `sendImagesForFinals` (App.tsx lines
518-525): strict parse first; on failure, retry on the slice between the
first `[` or `{` (`Math.min` over the hits; `Math.min()` of no hits is
`Infinity`, making `end > start` false) and the last `]` or `}`. -/
def finalsParseJson (p : String → Option Json) (raw : String) : Option Json :=
  match p raw with
  | some d => some d
  | none =>
    let start? : Option Nat :=
      match strIndexOf raw '[', strIndexOf raw '{' with
      | none, none => none
      | some a, none => some a
      | none, some b => some b
      | some a, some b => some (min a b)
    let endI : Int := max (lastIndexOfZ raw ']') (lastIndexOfZ raw '}')
    match start? with
    | none => none
    | some st => if (st : Int) < endI then p (strSlice raw st (endI.toNat + 1)) else none

/-- The `if (!data)` branch of `sendImagesForFinals` (App.tsx lines
526-535): a recognizable "Workflow was started" marker selects the
remediation message, otherwise the generic parse-failure message; both
mark the finals status as error. -/
def finalsUnparsed (raw : String) (s : AppState) : AppState :=
  if containsCI raw "Workflow was started" then
    { s with
        finalStatus := .error
        finalMessage := "Got “Workflow was started”. Ensure POST hits /webhook-wait/ and Webhook uses “Respond to Webhook”." }
  else
    { s with
        finalStatus := .error
        finalMessage := "Could not parse response JSON from n8n." }

/-- Response core of `sendImagesForFinals` from the raw body on
(App.tsx lines 518-572).  `data` starts as `null` and keeps any falsy
successful parse, so the `!data` test fires on parse failure and on
falsy parsed values alike. -/
def sendImagesForFinalsCore (p : String → Option Json) (raw : String) (s : AppState) :
    AppState :=
  match finalsParseJson p raw with
  | none => finalsUnparsed raw s
  | some v =>
    if jsFalsy v then finalsUnparsed raw s
    else sendImagesForFinalsRootCore p (rootOfFinals v) s

end FinalsHandler

/-- C7: whenever the finals response body is unparseable as JSON even
after the embedded-JSON recovery attempt, the handler marks the finals
status Error, with the specific remediation message exactly when the
body contains the "Workflow was started" marker (case-insensitively)
and with the generic parse-failure message otherwise. -/
theorem finals_parse_failure (p : String → Option Json) (raw : String) (s : AppState)
    (h : finalsParseJson p raw = none) :
    (containsCI raw "Workflow was started" = true →
      sendImagesForFinalsCore p raw s = { s with
        finalStatus := .error
        finalMessage := "Got “Workflow was started”. Ensure POST hits /webhook-wait/ and Webhook uses “Respond to Webhook”." }) ∧
    (containsCI raw "Workflow was started" = false →
      sendImagesForFinalsCore p raw s = { s with
        finalStatus := .error
        finalMessage := "Could not parse response JSON from n8n." }) := by
  unfold sendImagesForFinalsCore
  rw [h]
  constructor <;> intro hm <;> simp [finalsUnparsed, hm]

/-- Witness for C7: the plain-text body `Workflow was started` yields
the remediation message, a marker-free unparseable body the generic
one. -/
theorem finals_parse_failure_witness :
    sendImagesForFinalsCore pNone "Workflow was started" initState = { initState with
      finalStatus := .error
      finalMessage := "Got “Workflow was started”. Ensure POST hits /webhook-wait/ and Webhook uses “Respond to Webhook”." } ∧
    sendImagesForFinalsCore pNone "no marker here" initState = { initState with
      finalStatus := .error
      finalMessage := "Could not parse response JSON from n8n." } :=
  ⟨(finals_parse_failure pNone "Workflow was started" initState rfl).1 (by decide),
    (finals_parse_failure pNone "no marker here" initState rfl).2 (by decide)⟩

theorem strListOfJson_jsonOfStrList (l : List String) : strListOfJson (jsonOfStrList l) = l := by
  induction l with
  | nil => rfl
  | cons a t ih =>
    simp only [jsonOfStrList, List.map, strListOfJson, List.filterMap]
    simpa [jsonOfStrList, strListOfJson] using ih

theorem finalsVideos_eq_first (p : String → Option Json) (root : Json) :
    finalsVideos p root = pickList p (jget root "videos") := by
  unfold finalsVideos
  rw [show jsOr (jsonOfStrList (pickList p (jget root "videos")))
      (jsOr (jsonOfStrList (pickList p (jget root "VIDEOS")))
        (jsOr (jsonOfStrList (pickList p (jget root "media")))
          (jsOr (jsonOfStrList (pickList p (jget root "urls"))) (jsonOfStrList []))))
    = jsonOfStrList (pickList p (jget root "videos")) from by simp [jsOr, jsonOfStrList, jsTruthy]]
  exact strListOfJson_jsonOfStrList _

/-- C2 fails on the code: `pickList` always returns an array and every
array is truthy in JS, so the `||` chain of candidates never advances
past `root.videos`.  With both fields present the first one wins as the
claim says, but with `videos` absent and `media: ["y"]` the computed
list is `[]`, not `["y"]`: the handler then reports a pending wait
instead of the media list. -/
theorem finalsVideos_chain_dead_fallback :
    finalsVideos pNone (Json.obj [("videos", Json.arr [Json.str "x"]),
      ("media", Json.arr [Json.str "y"])]) = ["x"] ∧
    pickList pNone (jget (Json.obj [("media", Json.arr [Json.str "y"])]) "media") = ["y"] ∧
    finalsVideos pNone (Json.obj [("media", Json.arr [Json.str "y"])]) = [] ∧
    (sendImagesForFinalsRootCore pNone (Json.obj [("media", Json.arr [Json.str "y"])])
      initState).finalStatus = St.pending ∧
    (sendImagesForFinalsRootCore pNone (Json.obj [("media", Json.arr [Json.str "y"])])
      initState).finalVideos = [] := by
  refine ⟨by decide, by decide, by decide, by decide, by decide⟩

/-- Counterexample to C4 as stated: on the Results-refresh handler the
status-bearing object `{status:"done"}` yields Done when unwrapped but
Pending when wrapped in a one-element list, because the `'status' in
data` test is applied before unwrapping and the legacy branch ignores
the `status` field. -/
theorem fetchResults_wrap_cex :
    (fetchResultsCore pNone (Json.obj [("status", Json.str "done")]) initState).status
      = St.done ∧
    (fetchResultsCore pNone (Json.arr [Json.obj [("status", Json.str "done")]])
      initState).status = St.pending := by
  refine ⟨by decide, by decide⟩

/-- C4 amended: a one-element list wrapping an object is processed
identically to the unwrapped object by the review-submit, results-submit
and finals root extraction, and by the results-refresh handler whenever
the object carries no `status` key; a status-bearing object falls into
the status branch only in unwrapped form. -/
theorem wrapEquiv_amended (p : String → Option Json) (fs : List (String × Json))
    (s : AppState) :
    sendBackToN8nCore p (Json.arr [Json.obj fs]) s = sendBackToN8nCore p (Json.obj fs) s ∧
    sendSelectedImagesBackCore p (Json.arr [Json.obj fs]) s
      = sendSelectedImagesBackCore p (Json.obj fs) s ∧
    rootOfFinals (Json.arr [Json.obj fs]) = rootOfFinals (Json.obj fs) ∧
    (hasKey (Json.obj fs) "status" = false →
      fetchResultsCore p (Json.arr [Json.obj fs]) s = fetchResultsCore p (Json.obj fs) s) := by
  refine ⟨rfl, rfl, rfl, ?_⟩
  intro h
  unfold fetchResultsCore
  rw [show (isObjectLike (Json.arr [Json.obj fs]) && hasKey (Json.arr [Json.obj fs]) "status")
      = false from by simp [isObjectLike, hasKey]]
  rw [show (isObjectLike (Json.obj fs) && hasKey (Json.obj fs) "status") = false from by
    simp [isObjectLike, h]]
  rfl

/-- Witness for the amended C4: on a status-free object carrying an
image list, the wrapped and unwrapped Results-refresh updates agree. -/
theorem wrapEquiv_amended_witness :
    fetchResultsCore pNone (Json.arr [Json.obj [("images", Json.arr [Json.str "u"])]]) initState
      = fetchResultsCore pNone (Json.obj [("images", Json.arr [Json.str "u"])]) initState :=
  (wrapEquiv_amended pNone [("images", Json.arr [Json.str "u"])] initState).2.2.2 (by decide)

/-- C5: the review-submit handler issues the follow-up Results poll
exactly when its POST response carried neither a non-empty normalized
image list nor an explicit done/error status; when images or a terminal
status arrive it sets the Results state directly from the response and
returns without polling. -/
theorem sendBackToN8n_short_circuit (p : String → Option Json) (data : Json) (s : AppState) :
    ((sendBackToN8nCore p data s).2 = true ↔
      normalizeImages p (jget (coerceRootFromAny data) "images") = [] ∧
      stOf (coerceRootFromAny data) ≠ "done" ∧ stOf (coerceRootFromAny data) ≠ "error") ∧
    (normalizeImages p (jget (coerceRootFromAny data) "images") ≠ [] →
      (sendBackToN8nCore p data s).1.images
          = normalizeImages p (jget (coerceRootFromAny data) "images") ∧
        (sendBackToN8nCore p data s).1.status = St.done ∧
        (sendBackToN8nCore p data s).1.activeTab = Tab.results) ∧
    (normalizeImages p (jget (coerceRootFromAny data) "images") = [] →
      stOf (coerceRootFromAny data) = "done" →
      (sendBackToN8nCore p data s).1.status = St.done ∧
        (sendBackToN8nCore p data s).1.activeTab = Tab.results) ∧
    (normalizeImages p (jget (coerceRootFromAny data) "images") = [] →
      stOf (coerceRootFromAny data) = "error" →
      (sendBackToN8nCore p data s).1.status = St.error ∧
        (sendBackToN8nCore p data s).1.activeTab = Tab.results) := by
  by_cases h1 : normalizeImages p (jget (coerceRootFromAny data) "images") = [] <;>
    by_cases h2 : stOf (coerceRootFromAny data) = "done" <;>
      by_cases h3 : stOf (coerceRootFromAny data) = "error" <;>
        simp_all [sendBackToN8nCore]

/-- Witness for C5: a response carrying an image yields no poll and a
direct Done result; an empty response polls. -/
theorem sendBackToN8n_short_circuit_witness :
    (sendBackToN8nCore pNone (Json.obj [("images", Json.arr [Json.str "u"])]) initState).2
      = false ∧
    (sendBackToN8nCore pNone (Json.obj [("images", Json.arr [Json.str "u"])]) initState).1.status
      = St.done ∧
    (sendBackToN8nCore pNone (Json.obj []) initState).2 = true := by
  have h := sendBackToN8n_short_circuit pNone (Json.obj [("images", Json.arr [Json.str "u"])])
    initState
  have h0 := sendBackToN8n_short_circuit pNone (Json.obj []) initState
  refine ⟨?_, (h.2.1 (by decide)).2.1, h0.1.mpr (by refine ⟨by decide, by decide, by decide⟩)⟩
  cases hb : (sendBackToN8nCore pNone (Json.obj [("images", Json.arr [Json.str "u"])])
      initState).2 with
  | false => rfl
  | true => exact absurd (h.1.mp hb).1 (by decide)

/-- Counterexample to C1 as stated: the review-submit handler performs
no placeholder filtering, so a response whose `resumeUrl` is exactly the
"filled at execution time" placeholder overwrites the previously stored
address instead of being rejected. -/
theorem sendBack_placeholder_adopted_cex :
    (sendBackToN8nCore pNone (Json.obj [("resumeUrl",
        Json.str "[filled at execution time]")])
      { initState with resumeUrl := "/api/prev" }).1.resumeUrl
      = "[filled at execution time]" ∧
    "[filled at execution time]" ≠ "/api/prev" := by
  refine ⟨by decide, by decide⟩

/-- C1 amended: a truthy supplied continuation address is adopted
unconditionally — placeholder included — by the style-upload, compose,
review-fetch, review-submit and results-submit handlers and by the
legacy branch of results-refresh; the status branch of results-refresh
never updates the stored address; only the finals-request handler
filters, adopting the supplied value exactly when it is shaped like an
absolute http(s) URL or a slash-path and does not contain the
placeholder marker. -/
theorem fetchResultsFinish_resumeUrl (s : AppState) (ru : String) (imgs : List String)
    (msg : String) (state? : Option St) :
    (fetchResultsFinish s ru imgs msg state?).resumeUrl = ru := by
  unfold fetchResultsFinish
  split
  · rfl
  · split
    · rfl
    · rfl

theorem resumeAdoption_amended (p : String → Option Json) (s : AppState) (old : String)
    (v : String) (hv : v ≠ "") :
    uploadStyleResume (Json.obj [("resumeUrl", Json.str v)]) old = v ∧
    composeResume (Json.obj [("resumeUrl", Json.str v)]) old = v ∧
    fetchReviewResume (Json.obj [("resumeUrl", Json.str v)]) old = v ∧
    (sendBackToN8nCore p (Json.obj [("resumeUrl", Json.str v)]) s).1.resumeUrl = v ∧
    (sendSelectedImagesBackCore p (Json.obj [("resumeUrl", Json.str v)]) s).resumeUrl = v ∧
    (fetchResultsCore p (Json.obj [("resumeUrl", Json.str v)]) s).resumeUrl = v ∧
    (∀ fs, hasKey (Json.obj fs) "status" = true →
      (fetchResultsCore p (Json.obj fs) s).resumeUrl = s.resumeUrl) ∧
    (∀ w, (sendImagesForFinalsRootCore p (Json.obj [("resumeUrl", Json.str w)]) s).resumeUrl
      = if resumeShapeOk w && !containsCI w placeholderMarker then w else s.resumeUrl) := by
  have hj : jget (Json.obj [("resumeUrl", Json.str v)]) "resumeUrl" = Json.str v := rfl
  have ht : jsTruthy (Json.str v) = true := by simp [jsTruthy, hv]
  have hroot : coerceRootFromAny (Json.obj [("resumeUrl", Json.str v)])
      = Json.obj [("resumeUrl", Json.str v)] := rfl
  have himgs : normalizeImages p (jget (Json.obj [("resumeUrl", Json.str v)]) "images")
      = [] := rfl
  have hst : stOf (Json.obj [("resumeUrl", Json.str v)]) = "" := rfl
  have hmsg : msgOf (Json.obj [("resumeUrl", Json.str v)]) = "" := rfl
  have hok : jsTruthy (jget (Json.obj [("resumeUrl", Json.str v)]) "ok") = false := rfl
  refine ⟨?_, ?_, ?_, ?_, ?_, ?_, ?_, ?_⟩
  · simp [uploadStyleResume, hj, jsTruthy, hv, jsToString]
  · simp [composeResume, hj, jsTruthy, hv, jsToString]
  · simp [fetchReviewResume, hj, jsTruthy, hv, jsToString]
  · simp only [sendBackToN8nCore, hroot, hj, ht, if_true, himgs, hst, hmsg]
    simp [jsToString]
  · simp only [sendSelectedImagesBackCore, hroot, hj, ht, if_true, himgs, hst, hmsg]
    simp [jsToString]
  · simp only [fetchResultsCore,
      show (isObjectLike (Json.obj [("resumeUrl", Json.str v)])
        && hasKey (Json.obj [("resumeUrl", Json.str v)]) "status") = false from rfl,
      Bool.false_eq_true, if_false, hroot, hj, ht, if_true, himgs, hmsg, hok]
    rw [fetchResultsFinish_resumeUrl]
    simp [jsToString]
  · intro fs hk
    simp only [fetchResultsCore, isObjectLike, Bool.true_and, hk, if_true]
    rw [fetchResultsFinish_resumeUrl]
  · intro w
    have hjw : jget (Json.obj [("resumeUrl", Json.str w)]) "resumeUrl" = Json.str w := rfl
    have hmr : jsToString (jsOr (Json.str w) (Json.str "")) = w := by
      by_cases hw : w = ""
      · simp [jsOr, jsTruthy, hw, jsToString]
      · simp [jsOr, jsTruthy, hw, jsToString]
    simp only [sendImagesForFinalsRootCore, hjw, hmr]
    by_cases hsh : (resumeShapeOk w && !containsCI w placeholderMarker) = true
    · rw [if_pos hsh, if_pos hsh]
      split
      · rfl
      · rfl
    · rw [if_neg hsh, if_neg hsh]
      split
      · rfl
      · rfl

/-- Witness for the amended C1: the review-submit style handlers adopt
the placeholder value verbatim, while the finals-request handler rejects
it and keeps the stored address, yet adopts a well-shaped slash-path. -/
theorem resumeAdoption_amended_witness :
    uploadStyleResume (Json.obj [("resumeUrl", Json.str "[filled at execution time]")])
      "/api/prev" = "[filled at execution time]" ∧
    (sendImagesForFinalsRootCore pNone
      (Json.obj [("resumeUrl", Json.str "[filled at execution time]")])
      { initState with resumeUrl := "/api/prev" }).resumeUrl = "/api/prev" ∧
    (sendImagesForFinalsRootCore pNone (Json.obj [("resumeUrl", Json.str "/webhook-wait/9")])
      initState).resumeUrl = "/webhook-wait/9" := by
  have h1 := resumeAdoption_amended pNone { initState with resumeUrl := "/api/prev" }
    "/api/prev" "[filled at execution time]" (by decide)
  have h2 := resumeAdoption_amended pNone initState "/api/prev" "/webhook-wait/9" (by decide)
  refine ⟨h1.1, ?_, ?_⟩
  · exact (h1.2.2.2.2.2.2.2 "[filled at execution time]").trans (by decide)
  · exact (h2.2.2.2.2.2.2.2 "/webhook-wait/9").trans (by decide)
